import Mathlib

/-!
Shallow embedding of `autopacmen/submodules/get_protein_mass_mapping.py`.

The program builds, for a metabolic model, a mapping from gene (protein)
identifiers to protein masses:

1. grouping: for each gene with a `"uniprot"` annotation, group the gene id
   under its UniProt accession (`uniprot_id_protein_id_mapping`);
2. resolution: for each accession (in grouping insertion order), either load a
   cached mass (one pickle file per accession, listed once at start), or call
   the remote UniProt API, record a successful mass, persist it to the cache,
   and apply a fixed throttle delay (`uniprot_id_protein_mass_mapping`);
3. assembly: expand resolved masses back to gene ids
   (`protein_id_mass_mapping`);
4. output: write the result as JSON to
   `standardize_folder(project_folder) + project_name + "_protein_id_mass_mapping.json"`.

Python dicts are modelled as association lists with insertion-order semantics
(`setKey` updates in place or appends).  Masses are an opaque type `M`
(the program never computes with them, it only moves them around).  The remote
service is a function `String → Option M` (`none` covers every failure mode:
non-2xx status, network error, malformed JSON, missing mass field).  The cache
is an association list `String × Option M`: a key present with value `some m`
is a readable record, a key present with value `none` is a record that exists
but cannot be unpickled; `pickle_load` raising on such a record aborts the
Python run, which the embedding models as `Except.error`.
-/

/-- Python dict membership test on an association list. -/
def containsKey {α : Type} {β : Type} [DecidableEq α] (l : List (α × β)) (k : α) : Bool :=
  l.any (fun p => p.1 = k)

/-- Python dict lookup `d[k]` on an association list (first matching key). -/
def lookupKey {α : Type} {β : Type} [DecidableEq α] (l : List (α × β)) (k : α) : Option β :=
  match l with
  | [] => none
  | p :: rest => if p.1 = k then some p.2 else lookupKey rest k

/-- Python dict assignment `d[k] = v`: update the entry in place when the key
is present, append a new entry otherwise. -/
def setKey {α : Type} {β : Type} [DecidableEq α] (l : List (α × β)) (k : α) (v : β) :
    List (α × β) :=
  match l with
  | [] => [(k, v)]
  | p :: rest => if p.1 = k then (k, v) :: rest else p :: setKey rest k v

/-- A gene record of the cobra model: a local identifier and an annotation
dictionary (the accession, when present, is under key `"uniprot"`). -/
structure Gene where
  id : String
  annot : List (String × String)
deriving DecidableEq

/-- The body of the grouping loop for one gene (lines 64-71): skip a gene
without a `"uniprot"` annotation, otherwise append its id to the list held
under its accession, creating the entry when absent. -/
def groupStep (m : List (String × List String)) (g : Gene) : List (String × List String) :=
  match lookupKey g.annot "uniprot" with
  | none => m
  | some u =>
    if containsKey m u then
      setKey m u ((lookupKey m u).getD [] ++ [g.id])
    else
      m ++ [(u, [g.id])]

/-- Lines 63-71: build `uniprot_id_protein_id_mapping`, the mapping from
UniProt accession to the list of gene ids annotated with it. -/
def uniprot_id_protein_id_mapping (genes : List Gene) : List (String × List String) :=
  genes.foldl groupStep []

/-- State of the resolution loop (lines 85-119).  `resolved` is
`uniprot_id_protein_mass_mapping`; `writes` records the `pickle_write` calls;
`fetched` records the accessions for which `requests.get` was issued;
`remoteCalls` counts those calls and `delays` the `time.sleep(0.4)` throttle
pauses; `corrupt` is `some u` when `pickle_load` raised on the cache record of
`u`, aborting the run. -/
structure ResolverState (M : Type) where
  resolved : List (String × M)
  writes : List (String × M)
  fetched : List String
  remoteCalls : Nat
  delays : Nat
  corrupt : Option String
deriving DecidableEq

/-- The body of the resolution loop for one accession `u` (lines 86-119).
Once `corrupt` is set the remaining iterations never run (the exception has
already propagated), so the step is the identity from then on.  In the
uncached branch the remote call is counted and recorded in `fetched`; on a
successful fetch the mass enters `resolved`; the code then re-checks whether
`u` is a key of the mass dict and persists the looked-up value when it is
(the four flat cases spell out the two nested outcomes); the throttle delay
runs in every uncached branch. -/
def resolveStep {M : Type} (cache : List (String × Option M)) (fetch : String → Option M)
    (st : ResolverState M) (u : String) : ResolverState M :=
  if st.corrupt.isSome then st
  else if containsKey cache u then
    match lookupKey cache u with
    | some (some m) => { st with resolved := setKey st.resolved u m }
    | _ => { st with corrupt := some u }
  else
    match fetch u with
    | some m =>
      match lookupKey (setKey st.resolved u m) u with
      | some m2 =>
        { st with resolved := setKey st.resolved u m,
                  writes := st.writes ++ [(u, m2)],
                  fetched := st.fetched ++ [u],
                  remoteCalls := st.remoteCalls + 1,
                  delays := st.delays + 1 }
      | none =>
        { st with resolved := setKey st.resolved u m,
                  fetched := st.fetched ++ [u],
                  remoteCalls := st.remoteCalls + 1,
                  delays := st.delays + 1 }
    | none =>
      match lookupKey st.resolved u with
      | some m2 =>
        { st with writes := st.writes ++ [(u, m2)],
                  fetched := st.fetched ++ [u],
                  remoteCalls := st.remoteCalls + 1,
                  delays := st.delays + 1 }
      | none =>
        { st with fetched := st.fetched ++ [u],
                  remoteCalls := st.remoteCalls + 1,
                  delays := st.delays + 1 }

/-- The initial resolver state. -/
def initState (M : Type) : ResolverState M :=
  { resolved := [], writes := [], fetched := [], remoteCalls := 0, delays := 0,
    corrupt := none }

/-- The whole resolution loop over the accession list (lines 85-119). -/
def resolveAll {M : Type} (cache : List (String × Option M)) (fetch : String → Option M)
    (us : List String) : ResolverState M :=
  us.foldl (resolveStep cache fetch) (initState M)

/-- Lines 122-130: assemble `protein_id_mass_mapping` from the resolved masses
and the grouping, together with the textual messages printed during assembly.
The loop runs over the keys of `uniprot_id_protein_mass_mapping`; looking that
key up again inside cannot fail (third branch), while a key missing from the
grouping triggers the `"No mass found for ...!"` message. -/
def assembleStep {M : Type} (grouping : List (String × List String))
    (resolved : List (String × M)) (acc : List (String × M) × List String) (u : String) :
    List (String × M) × List String :=
  match lookupKey grouping u, lookupKey resolved u with
  | none, _ => (acc.1, acc.2 ++ ["No mass found for " ++ u ++ "!"])
  | some pids, some m => (pids.foldl (fun out pid => setKey out pid m) acc.1, acc.2)
  | some _, none => acc

/-- Lines 122-130 as a fold of `assembleStep` over the resolved accessions. -/
def protein_id_mass_mapping {M : Type} (grouping : List (String × List String))
    (resolved : List (String × M)) : List (String × M) × List String :=
  (resolved.map Prod.fst).foldl (assembleStep grouping resolved) ([], [])

/-- Modelled from the spec: `standardize_folder` lives in
`helper_general.py`, which is not part of the sources at hand; the spec says
the folder path is normalized by ensuring a trailing separator. -/
def standardize_folder (folder : String) : String :=
  if folder.data.getLast? = some '/' then folder else folder ++ "/"

/-- Modelled from the spec: `json_write` lives in `helper_general.py`, which
is not part of the sources at hand; the spec says it serializes the mapping at
the given path, unconditionally overwriting any pre-existing file.  The file
system is modelled as an association list from paths to contents. -/
def json_write {α : Type} (fs : List (String × α)) (path : String) (content : α) :
    List (String × α) :=
  setKey fs path content

/-- The observable outcome of a successful run of `get_protein_mass_mapping`. -/
structure RunOk (M : Type) where
  grouping : List (String × List String)
  resolved : List (String × M)
  output : List (String × M)
  asmMessages : List String
  cacheAfter : List (String × Option M)
  remoteCalls : Nat
  delays : Nat
  fetched : List String
  outPath : String
deriving DecidableEq

/-- Lines 62-134: the whole run.  `cache` is the on-disk cache directory at
start (`cache_files` with the readable value of each file), `fetch` the remote
service.  A cache record that cannot be unpickled raises, aborting the run
(`Except.error`); otherwise the run returns the grouping, the resolved and
assembled mappings, the messages, the cache directory after all
`pickle_write` calls, the call/delay counters and the output file path. -/
def get_protein_mass_mapping {M : Type} (genes : List Gene)
    (cache : List (String × Option M)) (fetch : String → Option M)
    (project_folder project_name : String) : Except String (RunOk M) :=
  let grouping := uniprot_id_protein_id_mapping genes
  let st := resolveAll cache fetch (grouping.map Prod.fst)
  match st.corrupt with
  | some u => Except.error u
  | none =>
    Except.ok
      { grouping := grouping
        resolved := st.resolved
        output := (protein_id_mass_mapping grouping st.resolved).1
        asmMessages := (protein_id_mass_mapping grouping st.resolved).2
        cacheAfter := st.writes.foldl (fun c p => setKey c p.1 (some p.2)) cache
        remoteCalls := st.remoteCalls
        delays := st.delays
        fetched := st.fetched
        outPath := standardize_folder project_folder ++ project_name
          ++ "_protein_id_mass_mapping.json" }

/-- The accession-mass pairs the remote service answers for, in list order:
the resolver's result on a run where nothing relevant is cached. -/
def fetchSuccesses {M : Type} (fetch : String → Option M) (us : List String) :
    List (String × M) :=
  us.filterMap (fun u => (fetch u).map (fun m => (u, m)))

/-- The three-gene example model of the spec: `g1` annotated with accession
`P1`, `g2` with `P2`, `g3` without annotation. -/
def genesEx : List Gene :=
  [{ id := "g1", annot := [("uniprot", "P1")] },
   { id := "g2", annot := [("uniprot", "P2")] },
   { id := "g3", annot := [] }]

/-- A deterministic remote service answering mass 10.5 for `P1` and failing
for every other accession. -/
def fetchEx : String → Option Rat :=
  fun u => if u = "P1" then some (10.5 : Rat) else none

/-- Two genes sharing one accession, for the fan-out property. -/
def genesFan : List Gene :=
  [{ id := "g1", annot := [("uniprot", "P1")] },
   { id := "g2", annot := [("uniprot", "P1")] }]

/-- A deterministic remote service answering mass 55.2 for `P1`. -/
def fetchFan : String → Option Rat :=
  fun u => if u = "P1" then some (55.2 : Rat) else none

/-- A cache holding readable records for both accessions of `genesEx`. -/
def cacheFull : List (String × Option Rat) :=
  [("P1", some (10.5 : Rat)), ("P2", some (7.3 : Rat))]

/-- A cache whose record for `P1` exists but cannot be unpickled. -/
def cacheBad : List (String × Option Rat) :=
  [("P1", none)]

/-- The outcome of running the example model against `fetchEx` with an empty
cache. -/
def rEx : RunOk Rat :=
  { grouping := [("P1", ["g1"]), ("P2", ["g2"])]
    resolved := [("P1", (10.5 : Rat))]
    output := [("g1", (10.5 : Rat))]
    asmMessages := []
    cacheAfter := [("P1", some (10.5 : Rat))]
    remoteCalls := 2
    delays := 2
    fetched := ["P1", "P2"]
    outPath := "proj/test_protein_id_mass_mapping.json" }

/-- The outcome of running the fan-out model against `fetchFan` with an empty
cache. -/
def rFan : RunOk Rat :=
  { grouping := [("P1", ["g1", "g2"])]
    resolved := [("P1", (55.2 : Rat))]
    output := [("g1", (55.2 : Rat)), ("g2", (55.2 : Rat))]
    asmMessages := []
    cacheAfter := [("P1", some (55.2 : Rat))]
    remoteCalls := 1
    delays := 1
    fetched := ["P1"]
    outPath := "proj/test_protein_id_mass_mapping.json" }

/-! ### Association-list lemmas -/

theorem lookupKey_isSome_iff_mem {α β : Type} [DecidableEq α] (l : List (α × β)) (k : α) :
    (lookupKey l k).isSome = true ↔ k ∈ l.map Prod.fst := by
  induction l with
  | nil => simp [lookupKey]
  | cons p rest ih =>
    by_cases h : p.1 = k <;> simp [lookupKey, h, ih]
    exact fun hn => (h hn.symm).elim

theorem containsKey_eq_isSome_lookupKey {α β : Type} [DecidableEq α]
    (l : List (α × β)) (k : α) : containsKey l k = (lookupKey l k).isSome := by
  induction l with
  | nil => rfl
  | cons p rest ih =>
    by_cases h : p.1 = k
    · simp [containsKey, lookupKey, h]
    · simpa [containsKey, lookupKey, h] using ih

theorem containsKey_iff_mem {α β : Type} [DecidableEq α] (l : List (α × β)) (k : α) :
    containsKey l k = true ↔ k ∈ l.map Prod.fst := by
  rw [containsKey_eq_isSome_lookupKey]
  exact lookupKey_isSome_iff_mem l k

theorem lookupKey_eq_none_iff {α β : Type} [DecidableEq α] (l : List (α × β)) (k : α) :
    lookupKey l k = none ↔ k ∉ l.map Prod.fst := by
  rw [← lookupKey_isSome_iff_mem]
  cases lookupKey l k <;> simp

theorem lookupKey_setKey_self {α β : Type} [DecidableEq α] (l : List (α × β)) (k : α) (v : β) :
    lookupKey (setKey l k v) k = some v := by
  induction l with
  | nil => simp [setKey, lookupKey]
  | cons p rest ih =>
    by_cases h : p.1 = k <;> simp [setKey, h, lookupKey, ih]

theorem lookupKey_setKey_ne {α β : Type} [DecidableEq α] (l : List (α × β)) (k k' : α) (v : β)
    (h : k' ≠ k) : lookupKey (setKey l k v) k' = lookupKey l k' := by
  have hk : ¬ (k = k') := fun hh => h hh.symm
  induction l with
  | nil => simp [setKey, lookupKey, hk]
  | cons p rest ih =>
    have hs : setKey (p :: rest) k v
        = if p.1 = k then (k, v) :: rest else p :: setKey rest k v := rfl
    by_cases hp : p.1 = k
    · have hpk : ¬ (p.1 = k') := by rw [hp]; exact hk
      rw [hs, if_pos hp]
      simp [lookupKey, hk, hpk]
    · rw [hs, if_neg hp]
      by_cases hq : p.1 = k' <;> simp [lookupKey, hq, ih]

theorem setKey_of_not_containsKey {α β : Type} [DecidableEq α] (l : List (α × β)) (k : α)
    (v : β) (h : containsKey l k = false) : setKey l k v = l ++ [(k, v)] := by
  induction l with
  | nil => simp [setKey]
  | cons p rest ih =>
    simp only [containsKey, List.any_cons, Bool.or_eq_false_iff] at h
    obtain ⟨h1, h2⟩ := h
    have hp : ¬ p.1 = k := by simpa using h1
    simp [setKey, hp, ih h2]

theorem keys_setKey_of_containsKey {α β : Type} [DecidableEq α] (l : List (α × β)) (k : α)
    (v : β) (h : containsKey l k = true) :
    (setKey l k v).map Prod.fst = l.map Prod.fst := by
  induction l with
  | nil => simp [containsKey] at h
  | cons p rest ih =>
    by_cases hp : p.1 = k
    · simp [setKey, hp]
    · simp only [containsKey, List.any_cons, Bool.or_eq_true] at h
      rcases h with h | h
      · exact absurd (by simpa using h) hp
      · simp [setKey, hp, ih h]

theorem keys_setKey_subset {α β : Type} [DecidableEq α] (l : List (α × β)) (k k' : α) (v : β)
    (h : k' ∈ (setKey l k v).map Prod.fst) : k' ∈ l.map Prod.fst ∨ k' = k := by
  induction l with
  | nil =>
    simp [setKey] at h
    simp [h]
  | cons p rest ih =>
    by_cases hp : p.1 = k
    · simp only [setKey, hp, if_true, List.map_cons, List.mem_cons] at h
      rcases h with h | h
      · right; exact h
      · left; simp [h]
    · simp only [setKey, hp, if_false, List.map_cons, List.mem_cons] at h
      rcases h with h | h
      · left; simp [h]
      · rcases ih h with h2 | h2
        · left; simp [h2]
        · right; exact h2

theorem nodup_keys_setKey {α β : Type} [DecidableEq α] (l : List (α × β)) (k : α) (v : β)
    (h : (l.map Prod.fst).Nodup) : ((setKey l k v).map Prod.fst).Nodup := by
  by_cases hc : containsKey l k = true
  · rw [keys_setKey_of_containsKey l k v hc]; exact h
  · have hc2 : containsKey l k = false := by simpa using hc
    rw [setKey_of_not_containsKey l k v hc2]
    have hk : k ∉ l.map Prod.fst := fun hm => hc ((containsKey_iff_mem l k).2 hm)
    simp only [List.map_append, List.map_cons, List.map_nil]
    rw [List.nodup_append]
    refine ⟨h, List.nodup_singleton k, ?_⟩
    intro a ha hb
    simp only [List.mem_singleton] at hb
    subst hb
    exact hk ha

theorem lookupKey_append_of_none {α β : Type} [DecidableEq α] (l1 l2 : List (α × β)) (k : α)
    (h : lookupKey l1 k = none) : lookupKey (l1 ++ l2) k = lookupKey l2 k := by
  induction l1 with
  | nil => simp
  | cons p rest ih =>
    simp only [lookupKey] at h
    by_cases hp : p.1 = k
    · simp [hp] at h
    · simp only [hp, if_false] at h
      simp only [List.cons_append, lookupKey, hp, if_false]
      exact ih h

theorem lookupKey_append_of_some {α β : Type} [DecidableEq α] (l1 l2 : List (α × β)) (k : α)
    (v : β) (h : lookupKey l1 k = some v) : lookupKey (l1 ++ l2) k = some v := by
  induction l1 with
  | nil => simp [lookupKey] at h
  | cons p rest ih =>
    simp only [lookupKey] at h ⊢
    by_cases hp : p.1 = k
    · simpa [List.cons_append, lookupKey, hp] using h
    · simp only [hp, if_false] at h
      simpa [List.cons_append, lookupKey, hp] using ih h

theorem lookupKey_map_snd {α β γ : Type} [DecidableEq α] (l : List (α × β)) (f : β → γ)
    (k : α) : lookupKey (l.map (fun p => (p.1, f p.2))) k = (lookupKey l k).map f := by
  induction l with
  | nil => simp [lookupKey]
  | cons p rest ih =>
    by_cases hp : p.1 = k <;> simp [lookupKey, hp, ih]

/-! ### Grouping lemmas -/

theorem grouping_mem_aux (C : String → String → Prop) :
    ∀ (gs : List Gene) (m : List (String × List String)),
    (∀ u pids pid, lookupKey m u = some pids → pid ∈ pids → C u pid) →
    (∀ g ∈ gs, ∀ u, lookupKey g.annot "uniprot" = some u → C u g.id) →
    ∀ u pids pid, lookupKey (gs.foldl groupStep m) u = some pids → pid ∈ pids → C u pid := by
  intro gs
  induction gs with
  | nil => intro m hm _ u pids pid h1 h2; exact hm u pids pid h1 h2
  | cons g gs ih =>
    intro m hm hg u pids pid h1 h2
    rw [List.foldl_cons] at h1
    refine ih (groupStep m g) ?_ (fun g' hg' => hg g' (List.mem_cons_of_mem g hg')) u pids pid h1 h2
    intro u' pids' pid' hl hp
    cases hann : lookupKey g.annot "uniprot" with
    | none => simp only [groupStep, hann] at hl; exact hm u' pids' pid' hl hp
    | some u0 =>
      simp only [groupStep, hann] at hl
      by_cases hc : containsKey m u0 = true
      · rw [if_pos hc] at hl
        by_cases hu : u' = u0
        · subst hu
          rw [lookupKey_setKey_self] at hl
          obtain ⟨old, hold⟩ : ∃ old, lookupKey m u' = some old := by
            rw [containsKey_eq_isSome_lookupKey] at hc
            exact Option.isSome_iff_exists.mp hc
          injection hl with hl
          subst hl
          rw [hold] at hp
          simp only [Option.getD_some, List.mem_append, List.mem_singleton] at hp
          rcases hp with hp | hp
          · exact hm u' old pid' hold hp
          · subst hp
            exact hg g (List.mem_cons_self g gs) u' hann
        · rw [lookupKey_setKey_ne m u0 u' _ hu] at hl
          exact hm u' pids' pid' hl hp
      · rw [if_neg hc] at hl
        cases hml : lookupKey m u' with
        | some pids0 =>
          rw [lookupKey_append_of_some m _ u' pids0 hml] at hl
          injection hl with hl
          subst hl
          exact hm u' _ pid' hml hp
        | none =>
          rw [lookupKey_append_of_none m _ u' hml] at hl
          simp only [lookupKey] at hl
          by_cases hu : u0 = u'
          · rw [if_pos hu] at hl
            injection hl with hl
            subst hl
            simp only [List.mem_singleton] at hp
            subst hp
            subst hu
            exact hg g (List.mem_cons_self g gs) _ hann
          · rw [if_neg hu] at hl
            exact absurd hl (by simp)

/-- Provenance of the grouping: every gene id filed under accession `u` comes
from a gene of the model whose `"uniprot"` annotation is `u`. -/
theorem grouping_mem (genes : List Gene) (u : String) (pids : List String) (pid : String)
    (h1 : lookupKey (uniprot_id_protein_id_mapping genes) u = some pids) (h2 : pid ∈ pids) :
    ∃ g, g ∈ genes ∧ g.id = pid ∧ lookupKey g.annot "uniprot" = some u :=
  grouping_mem_aux (fun u' pid' => ∃ g, g ∈ genes ∧ g.id = pid' ∧
      lookupKey g.annot "uniprot" = some u')
    genes [] (by intro u' pids' pid' h; simp [lookupKey] at h)
    (fun g hg u' ha => ⟨g, hg, rfl, ha⟩) u pids pid h1 h2

theorem nodup_keys_groupStep (m : List (String × List String)) (g : Gene)
    (h : (m.map Prod.fst).Nodup) : ((groupStep m g).map Prod.fst).Nodup := by
  cases hann : lookupKey g.annot "uniprot" with
  | none => simp only [groupStep, hann]; exact h
  | some u0 =>
    simp only [groupStep, hann]
    by_cases hc : containsKey m u0 = true
    · rw [if_pos hc]
      exact nodup_keys_setKey m u0 _ h
    · rw [if_neg hc]
      have hk : u0 ∉ m.map Prod.fst := fun hm => hc ((containsKey_iff_mem m u0).2 hm)
      simp only [List.map_append, List.map_cons, List.map_nil]
      rw [List.nodup_append]
      refine ⟨h, List.nodup_singleton u0, ?_⟩
      intro a ha hb
      simp only [List.mem_singleton] at hb
      subst hb
      exact hk ha

/-- The accessions of the grouping are pairwise distinct (they are the keys of
a Python dict). -/
theorem nodup_keys_grouping (genes : List Gene) :
    ((uniprot_id_protein_id_mapping genes).map Prod.fst).Nodup := by
  have aux : ∀ (gs : List Gene) (m : List (String × List String)),
      (m.map Prod.fst).Nodup → ((gs.foldl groupStep m).map Prod.fst).Nodup := by
    intro gs
    induction gs with
    | nil => intro m hm; exact hm
    | cons g gs ih =>
      intro m hm
      rw [List.foldl_cons]
      exact ih (groupStep m g) (nodup_keys_groupStep m g hm)
  exact aux genes [] (by simp)

/-! ### Resolver lemmas -/

theorem foldl_resolveStep_frozen {M : Type} (cache : List (String × Option M))
    (fetch : String → Option M) (us : List String) (st : ResolverState M)
    (h : st.corrupt.isSome) : us.foldl (resolveStep cache fetch) st = st := by
  induction us with
  | nil => rfl
  | cons v vs ih =>
    rw [List.foldl_cons]
    have : resolveStep cache fetch st v = st := by
      unfold resolveStep
      rw [if_pos h]
    rw [this, ih]

theorem resolveStep_corrupt_mono {M : Type} (cache : List (String × Option M))
    (fetch : String → Option M) (st : ResolverState M) (v : String)
    (h : st.corrupt = none) :
    (resolveStep cache fetch st v).corrupt = none ∨
      (resolveStep cache fetch st v).corrupt = some v := by
  unfold resolveStep
  rw [if_neg (by simp [h])]
  by_cases hc : containsKey cache v = true
  · rw [if_pos hc]
    cases hl : lookupKey cache v with
    | none => right; rfl
    | some o =>
      cases o with
      | none => right; rfl
      | some m => left; exact h
  · rw [if_neg hc]
    cases hf : fetch v with
    | some m =>
      simp only [hf]
      cases hr : lookupKey (setKey st.resolved v m) v <;> simp only [hr] <;> left <;> exact h
    | none =>
      simp only [hf]
      cases hr : lookupKey st.resolved v <;> simp only [hr] <;> left <;> exact h

theorem counts_of_all_cached {M : Type} (cache : List (String × Option M))
    (fetch : String → Option M) :
    ∀ (us : List String) (st : ResolverState M),
    (∀ u ∈ us, containsKey cache u = true) →
    (us.foldl (resolveStep cache fetch) st).remoteCalls = st.remoteCalls ∧
    (us.foldl (resolveStep cache fetch) st).delays = st.delays ∧
    (us.foldl (resolveStep cache fetch) st).fetched = st.fetched := by
  intro us
  induction us with
  | nil => intro st _; exact ⟨rfl, rfl, rfl⟩
  | cons v vs ih =>
    intro st h
    rw [List.foldl_cons]
    have hv : containsKey cache v = true := h v (List.mem_cons_self v vs)
    have hstep : (resolveStep cache fetch st v).remoteCalls = st.remoteCalls ∧
        (resolveStep cache fetch st v).delays = st.delays ∧
        (resolveStep cache fetch st v).fetched = st.fetched := by
      unfold resolveStep
      by_cases hcor : st.corrupt.isSome
      · rw [if_pos hcor]; exact ⟨rfl, rfl, rfl⟩
      · rw [if_neg hcor, if_pos hv]
        cases hl : lookupKey cache v with
        | none => exact ⟨rfl, rfl, rfl⟩
        | some o => cases o <;> exact ⟨rfl, rfl, rfl⟩
    obtain ⟨h1, h2, h3⟩ := ih (resolveStep cache fetch st v) (fun u hu => h u (List.mem_cons_of_mem v hu))
    rw [h1, h2, h3]
    exact hstep

theorem resolveStep_corrupt_none {M : Type} (cache : List (String × Option M))
    (fetch : String → Option M) (st : ResolverState M) (u : String)
    (h : st.corrupt = none) (hclean : lookupKey cache u ≠ some none) :
    (resolveStep cache fetch st u).corrupt = none := by
  unfold resolveStep
  rw [if_neg (by simp [h])]
  by_cases hc : containsKey cache u = true
  · rw [if_pos hc]
    cases hl : lookupKey cache u with
    | none =>
      rw [containsKey_eq_isSome_lookupKey, hl] at hc
      simp at hc
    | some o =>
      cases o with
      | none => exact absurd hl hclean
      | some m => simp only []; exact h
  · rw [if_neg hc]
    cases hf : fetch u with
    | some m =>
      simp only [hf]
      cases hr : lookupKey (setKey st.resolved u m) u <;> simp only [hr] <;> exact h
    | none =>
      simp only [hf]
      cases hr : lookupKey st.resolved u <;> simp only [hr] <;> exact h

theorem foldl_corrupt_none {M : Type} (cache : List (String × Option M))
    (fetch : String → Option M) (hclean : ∀ u, lookupKey cache u ≠ some none) :
    ∀ (us : List String) (st : ResolverState M), st.corrupt = none →
    (us.foldl (resolveStep cache fetch) st).corrupt = none := by
  intro us
  induction us with
  | nil => intro st h; exact h
  | cons v vs ih =>
    intro st h
    rw [List.foldl_cons]
    exact ih _ (resolveStep_corrupt_none cache fetch st v h (hclean v))

theorem foldl_corrupt_isSome_of_bad {M : Type} (cache : List (String × Option M))
    (fetch : String → Option M) (u : String) (hbad : lookupKey cache u = some none) :
    ∀ (us : List String) (st : ResolverState M), u ∈ us →
    (us.foldl (resolveStep cache fetch) st).corrupt.isSome = true := by
  intro us
  induction us with
  | nil => intro st h; simp at h
  | cons v vs ih =>
    intro st h
    rw [List.foldl_cons]
    by_cases hcor : (resolveStep cache fetch st v).corrupt.isSome = true
    · rw [foldl_resolveStep_frozen cache fetch vs _ hcor]
      exact hcor
    · rcases List.mem_cons.mp h with hv | hv
      · exfalso
        apply hcor
        subst hv
        unfold resolveStep
        by_cases hfr : st.corrupt.isSome = true
        · rw [if_pos hfr]; exact hfr
        · rw [if_neg hfr]
          have hc : containsKey cache u = true := by
            rw [containsKey_eq_isSome_lookupKey, hbad]
            rfl
          rw [if_pos hc]
          simp only [hbad]
          rfl
      · exact ih _ hv

theorem resolveStep_cache_inv {M : Type} (cache : List (String × Option M))
    (fetch : String → Option M) (st : ResolverState M) (u : String)
    (h1 : ∀ v ∈ st.fetched, lookupKey cache v = none)
    (h2 : ∀ p ∈ st.writes, lookupKey cache (Prod.fst (α := String) (β := M) p) = none)
    (h3 : ∀ v, st.corrupt = some v → lookupKey cache v = some none) :
    (∀ v ∈ (resolveStep cache fetch st u).fetched, lookupKey cache v = none) ∧
    (∀ p ∈ (resolveStep cache fetch st u).writes,
      lookupKey cache (Prod.fst (α := String) (β := M) p) = none) ∧
    (∀ v, (resolveStep cache fetch st u).corrupt = some v →
      lookupKey cache v = some none) := by
  unfold resolveStep
  by_cases hfr : st.corrupt.isSome = true
  · rw [if_pos hfr]; exact ⟨h1, h2, h3⟩
  · rw [if_neg hfr]
    by_cases hc : containsKey cache u = true
    · rw [if_pos hc]
      cases hl : lookupKey cache u with
      | none =>
        rw [containsKey_eq_isSome_lookupKey, hl] at hc
        simp at hc
      | some o =>
        cases o with
        | none =>
          simp only []
          refine ⟨h1, h2, ?_⟩
          intro v hv
          have hv2 : some u = some v := hv
          injection hv2 with hv2
          subst hv2
          exact hl
        | some m => simp only []; exact ⟨h1, h2, h3⟩
    · rw [if_neg hc]
      have hcl : lookupKey cache u = none := by
        rw [containsKey_eq_isSome_lookupKey] at hc
        cases hl : lookupKey cache u with
        | none => rfl
        | some o => rw [hl] at hc; simp at hc
      have hfetched : ∀ v ∈ st.fetched ++ [u], lookupKey cache v = none := by
        intro v hv
        rcases List.mem_append.mp hv with hv | hv
        · exact h1 v hv
        · simp only [List.mem_singleton] at hv; subst hv; exact hcl
      cases hf : fetch u with
      | some m =>
        simp only [hf]
        cases hr : lookupKey (setKey st.resolved u m) u with
        | some m2 =>
          simp only [hr]
          refine ⟨hfetched, ?_, h3⟩
          intro p hp
          rcases List.mem_append.mp hp with hp | hp
          · exact h2 p hp
          · simp only [List.mem_singleton] at hp; subst hp; exact hcl
        | none => simp only [hr]; exact ⟨hfetched, h2, h3⟩
      | none =>
        simp only [hf]
        cases hr : lookupKey st.resolved u with
        | some m2 =>
          simp only [hr]
          refine ⟨hfetched, ?_, h3⟩
          intro p hp
          rcases List.mem_append.mp hp with hp | hp
          · exact h2 p hp
          · simp only [List.mem_singleton] at hp; subst hp; exact hcl
        | none => simp only [hr]; exact ⟨hfetched, h2, h3⟩

theorem foldl_cache_inv {M : Type} (cache : List (String × Option M))
    (fetch : String → Option M) :
    ∀ (us : List String) (st : ResolverState M),
    (∀ v ∈ st.fetched, lookupKey cache v = none) →
    (∀ p ∈ st.writes, lookupKey cache (Prod.fst (α := String) (β := M) p) = none) →
    (∀ v, st.corrupt = some v → lookupKey cache v = some none) →
    (∀ v ∈ (us.foldl (resolveStep cache fetch) st).fetched, lookupKey cache v = none) ∧
    (∀ p ∈ (us.foldl (resolveStep cache fetch) st).writes,
      lookupKey cache (Prod.fst (α := String) (β := M) p) = none) ∧
    (∀ v, (us.foldl (resolveStep cache fetch) st).corrupt = some v →
      lookupKey cache v = some none) := by
  intro us
  induction us with
  | nil => intro st h1 h2 h3; exact ⟨h1, h2, h3⟩
  | cons v vs ih =>
    intro st h1 h2 h3
    rw [List.foldl_cons]
    obtain ⟨g1, g2, g3⟩ := resolveStep_cache_inv cache fetch st v h1 h2 h3
    exact ih _ g1 g2 g3

theorem resolveStep_resolved_cases {M : Type} (cache : List (String × Option M))
    (fetch : String → Option M) (st : ResolverState M) (u : String) :
    (resolveStep cache fetch st u).resolved = st.resolved ∨
    ∃ m, (resolveStep cache fetch st u).resolved = setKey st.resolved u m := by
  unfold resolveStep
  by_cases hfr : st.corrupt.isSome = true
  · rw [if_pos hfr]; left; rfl
  · rw [if_neg hfr]
    by_cases hc : containsKey cache u = true
    · rw [if_pos hc]
      cases hl : lookupKey cache u with
      | none => left; rfl
      | some o =>
        cases o with
        | none => left; rfl
        | some m => right; exact ⟨m, rfl⟩
    · rw [if_neg hc]
      cases hf : fetch u with
      | some m =>
        cases hr : lookupKey (setKey st.resolved u m) u <;> simp only [hr] <;>
          right <;> exact ⟨m, rfl⟩
      | none =>
        cases hr : lookupKey st.resolved u <;> simp [hr]

theorem resolveStep_fetched_cases {M : Type} (cache : List (String × Option M))
    (fetch : String → Option M) (st : ResolverState M) (u : String) :
    (resolveStep cache fetch st u).fetched = st.fetched ∨
    (resolveStep cache fetch st u).fetched = st.fetched ++ [u] := by
  unfold resolveStep
  by_cases hfr : st.corrupt.isSome = true
  · rw [if_pos hfr]; left; rfl
  · rw [if_neg hfr]
    by_cases hc : containsKey cache u = true
    · rw [if_pos hc]
      cases hl : lookupKey cache u with
      | none => left; rfl
      | some o => cases o <;> left <;> rfl
    · rw [if_neg hc]
      cases hf : fetch u with
      | some m =>
        cases hr : lookupKey (setKey st.resolved u m) u <;> simp [hr]
      | none =>
        cases hr : lookupKey st.resolved u <;> simp [hr]

theorem resolveStep_resolved_lookup_ne {M : Type} (cache : List (String × Option M))
    (fetch : String → Option M) (st : ResolverState M) (v u : String) (h : u ≠ v) :
    lookupKey (resolveStep cache fetch st v).resolved u = lookupKey st.resolved u := by
  rcases resolveStep_resolved_cases cache fetch st v with hcase | ⟨m, hcase⟩
  · rw [hcase]
  · rw [hcase, lookupKey_setKey_ne st.resolved v u m h]

theorem foldl_resolved_keys_sub {M : Type} (cache : List (String × Option M))
    (fetch : String → Option M) :
    ∀ (us : List String) (st : ResolverState M) (k : String),
    k ∈ (us.foldl (resolveStep cache fetch) st).resolved.map Prod.fst →
    k ∈ st.resolved.map Prod.fst ∨ k ∈ us := by
  intro us
  induction us with
  | nil => intro st k h; left; exact h
  | cons v vs ih =>
    intro st k h
    rw [List.foldl_cons] at h
    rcases ih (resolveStep cache fetch st v) k h with h2 | h2
    · rcases resolveStep_resolved_cases cache fetch st v with hcase | ⟨m, hcase⟩
      · rw [hcase] at h2; left; exact h2
      · rw [hcase] at h2
        rcases keys_setKey_subset st.resolved v k m h2 with h3 | h3
        · left; exact h3
        · right; subst h3; exact List.mem_cons_self k vs
    · right; exact List.mem_cons_of_mem v h2

theorem foldl_resolved_lookup_of_not_mem {M : Type} (cache : List (String × Option M))
    (fetch : String → Option M) :
    ∀ (us : List String) (st : ResolverState M) (u : String), u ∉ us →
    lookupKey (us.foldl (resolveStep cache fetch) st).resolved u
      = lookupKey st.resolved u := by
  intro us
  induction us with
  | nil => intro st u _; rfl
  | cons v vs ih =>
    intro st u h
    rw [List.foldl_cons]
    have hu : u ≠ v := fun hh => h (hh ▸ List.mem_cons_self v vs)
    rw [ih _ u (fun hh => h (List.mem_cons_of_mem v hh))]
    exact resolveStep_resolved_lookup_ne cache fetch st v u hu

theorem foldl_nodup_keys_resolved {M : Type} (cache : List (String × Option M))
    (fetch : String → Option M) :
    ∀ (us : List String) (st : ResolverState M),
    (st.resolved.map Prod.fst).Nodup →
    ((us.foldl (resolveStep cache fetch) st).resolved.map Prod.fst).Nodup := by
  intro us
  induction us with
  | nil => intro st h; exact h
  | cons v vs ih =>
    intro st h
    rw [List.foldl_cons]
    refine ih _ ?_
    rcases resolveStep_resolved_cases cache fetch st v with hcase | ⟨m, hcase⟩
    · rw [hcase]; exact h
    · rw [hcase]; exact nodup_keys_setKey st.resolved v m h

theorem resolveStep_not_resolved {M : Type} (cache : List (String × Option M))
    (fetch : String → Option M) (st : ResolverState M) (u : String)
    (hcache : lookupKey cache u = none) (hf : fetch u = none)
    (h : lookupKey st.resolved u = none) :
    lookupKey (resolveStep cache fetch st u).resolved u = none := by
  unfold resolveStep
  by_cases hfr : st.corrupt.isSome = true
  · rw [if_pos hfr]; exact h
  · rw [if_neg hfr]
    have hc : ¬ containsKey cache u = true := by
      rw [containsKey_eq_isSome_lookupKey, hcache]
      simp
    rw [if_neg hc]
    simp only [hf, h]

theorem foldl_not_resolved {M : Type} (cache : List (String × Option M))
    (fetch : String → Option M) (u : String)
    (hcache : lookupKey cache u = none) (hf : fetch u = none) :
    ∀ (us : List String) (st : ResolverState M), lookupKey st.resolved u = none →
    lookupKey (us.foldl (resolveStep cache fetch) st).resolved u = none := by
  intro us
  induction us with
  | nil => intro st h; exact h
  | cons v vs ih =>
    intro st h
    rw [List.foldl_cons]
    by_cases hv : u = v
    · subst hv
      exact ih _ (resolveStep_not_resolved cache fetch st u hcache hf h)
    · refine ih _ ?_
      rw [resolveStep_resolved_lookup_ne cache fetch st v u hv]
      exact h

theorem resolveStep_success {M : Type} (cache : List (String × Option M))
    (fetch : String → Option M) (st : ResolverState M) (u : String) (m : M)
    (hcor : st.corrupt = none) (hcache : lookupKey cache u = none)
    (hf : fetch u = some m) :
    lookupKey (resolveStep cache fetch st u).resolved u = some m := by
  unfold resolveStep
  rw [if_neg (by simp [hcor])]
  have hc : ¬ containsKey cache u = true := by
    rw [containsKey_eq_isSome_lookupKey, hcache]
    simp
  rw [if_neg hc]
  simp only [hf]
  cases hr : lookupKey (setKey st.resolved u m) u with
  | none => rw [lookupKey_setKey_self] at hr; exact absurd hr (by simp)
  | some m2 =>
    simp only [hr]
    rw [lookupKey_setKey_self] at hr
    exact hr.symm

theorem resolveStep_keep_some {M : Type} (cache : List (String × Option M))
    (fetch : String → Option M) (st : ResolverState M) (u : String) (m : M)
    (hcache : lookupKey cache u = none) (hf : fetch u = some m)
    (h : lookupKey st.resolved u = some m) :
    lookupKey (resolveStep cache fetch st u).resolved u = some m := by
  unfold resolveStep
  by_cases hfr : st.corrupt.isSome = true
  · rw [if_pos hfr]; exact h
  · rw [if_neg hfr]
    have hc : ¬ containsKey cache u = true := by
      rw [containsKey_eq_isSome_lookupKey, hcache]
      simp
    rw [if_neg hc]
    simp only [hf]
    cases hr : lookupKey (setKey st.resolved u m) u with
    | none => rw [lookupKey_setKey_self] at hr; exact absurd hr (by simp)
    | some m2 =>
      simp only [hr]
      rw [lookupKey_setKey_self] at hr
      exact hr.symm

theorem foldl_keep_some {M : Type} (cache : List (String × Option M))
    (fetch : String → Option M) (u : String) (m : M)
    (hcache : lookupKey cache u = none) (hf : fetch u = some m) :
    ∀ (us : List String) (st : ResolverState M), lookupKey st.resolved u = some m →
    lookupKey (us.foldl (resolveStep cache fetch) st).resolved u = some m := by
  intro us
  induction us with
  | nil => intro st h; exact h
  | cons v vs ih =>
    intro st h
    rw [List.foldl_cons]
    by_cases hv : u = v
    · subst hv
      exact ih _ (resolveStep_keep_some cache fetch st u m hcache hf h)
    · refine ih _ ?_
      rw [resolveStep_resolved_lookup_ne cache fetch st v u hv]
      exact h

theorem foldl_resolved_of_success {M : Type} (cache : List (String × Option M))
    (fetch : String → Option M) (u : String) (m : M)
    (hclean : ∀ w, lookupKey cache w ≠ some none)
    (hcache : lookupKey cache u = none) (hf : fetch u = some m) :
    ∀ (us : List String) (st : ResolverState M), st.corrupt = none → u ∈ us →
    lookupKey (us.foldl (resolveStep cache fetch) st).resolved u = some m := by
  intro us
  induction us with
  | nil => intro st _ h; simp at h
  | cons v vs ih =>
    intro st hcor h
    rw [List.foldl_cons]
    by_cases hv : u = v
    · subst hv
      exact foldl_keep_some cache fetch u m hcache hf vs _
        (resolveStep_success cache fetch st u m hcor hcache hf)
    · rcases List.mem_cons.mp h with h2 | h2
      · exact absurd h2 hv
      · exact ih _ (resolveStep_corrupt_none cache fetch st v hcor (hclean v)) h2

theorem foldl_fetched_sublist {M : Type} (cache : List (String × Option M))
    (fetch : String → Option M) :
    ∀ (us : List String) (st : ResolverState M),
    ∃ t, (us.foldl (resolveStep cache fetch) st).fetched = st.fetched ++ t ∧
      t.Sublist us := by
  intro us
  induction us with
  | nil => intro st; exact ⟨[], by simp, List.nil_sublist []⟩
  | cons v vs ih =>
    intro st
    rw [List.foldl_cons]
    obtain ⟨t, ht, hs⟩ := ih (resolveStep cache fetch st v)
    rcases resolveStep_fetched_cases cache fetch st v with hcase | hcase
    · rw [hcase] at ht
      exact ⟨t, ht, List.Sublist.cons v hs⟩
    · rw [hcase, List.append_assoc] at ht
      exact ⟨v :: t, by simpa using ht, List.Sublist.cons₂ v hs⟩

/-! ### Assembler lemmas -/

theorem foldl_setKey_const {M : Type} (m : M) :
    ∀ (pids : List String) (out : List (String × M)) (q : String),
    lookupKey (pids.foldl (fun o pid => setKey o pid m) out) q
      = if q ∈ pids then some m else lookupKey out q := by
  intro pids
  induction pids with
  | nil => intro out q; simp
  | cons p ps ih =>
    intro out q
    rw [List.foldl_cons, ih]
    by_cases hq : q ∈ ps
    · rw [if_pos hq, if_pos (List.mem_cons_of_mem p hq)]
    · rw [if_neg hq]
      by_cases hp : q = p
      · subst hp
        rw [lookupKey_setKey_self, if_pos (List.mem_cons_self q ps)]
      · rw [lookupKey_setKey_ne out p q m hp, if_neg (by
          intro hmem
          rcases List.mem_cons.mp hmem with h | h
          · exact hp h
          · exact hq h)]

theorem keys_foldl_setKey_sub {M : Type} (m : M) :
    ∀ (pids : List String) (out : List (String × M)) (k : String),
    k ∈ (pids.foldl (fun o pid => setKey o pid m) out).map Prod.fst →
    k ∈ out.map Prod.fst ∨ k ∈ pids := by
  intro pids
  induction pids with
  | nil => intro out k h; left; exact h
  | cons p ps ih =>
    intro out k h
    rw [List.foldl_cons] at h
    rcases ih (setKey out p m) k h with h2 | h2
    · rcases keys_setKey_subset out p k m h2 with h3 | h3
      · left; exact h3
      · right; subst h3; exact List.mem_cons_self k ps
    · right; exact List.mem_cons_of_mem p h2

theorem assemble_msgs_aux {M : Type} (grouping : List (String × List String))
    (resolved : List (String × M)) :
    ∀ (ks : List String) (acc : List (String × M) × List String),
    (∀ u ∈ ks, (lookupKey grouping u).isSome = true) →
    (ks.foldl (assembleStep grouping resolved) acc).2 = acc.2 := by
  intro ks
  induction ks with
  | nil => intro acc _; rfl
  | cons v vs ih =>
    intro acc h
    rw [List.foldl_cons, ih _ (fun u hu => h u (List.mem_cons_of_mem v hu))]
    have hv := h v (List.mem_cons_self v vs)
    unfold assembleStep
    cases hg : lookupKey grouping v with
    | none => rw [hg] at hv; simp at hv
    | some pids =>
      cases hr : lookupKey resolved v <;> simp [hg, hr]

theorem assemble_preserve {M : Type} (grouping : List (String × List String))
    (resolved : List (String × M)) (pid : String) :
    ∀ (ks : List String) (acc : List (String × M) × List String),
    (∀ u2 ∈ ks, ∀ pids2, lookupKey grouping u2 = some pids2 → pid ∉ pids2) →
    lookupKey (ks.foldl (assembleStep grouping resolved) acc).1 pid
      = lookupKey acc.1 pid := by
  intro ks
  induction ks with
  | nil => intro acc _; rfl
  | cons v vs ih =>
    intro acc h
    rw [List.foldl_cons, ih _ (fun u hu => h u (List.mem_cons_of_mem v hu))]
    unfold assembleStep
    cases hg : lookupKey grouping v with
    | none => rfl
    | some pids =>
      cases hr : lookupKey resolved v with
      | none => rfl
      | some m =>
        simp only []
        rw [foldl_setKey_const m pids acc.1 pid,
          if_neg (h v (List.mem_cons_self v vs) pids hg)]

theorem assemble_keys_aux {M : Type} (grouping : List (String × List String))
    (resolved : List (String × M)) :
    ∀ (ks : List String) (acc : List (String × M) × List String) (pid : String),
    pid ∈ (ks.foldl (assembleStep grouping resolved) acc).1.map Prod.fst →
    pid ∈ acc.1.map Prod.fst ∨
    ∃ u pids m, u ∈ ks ∧ lookupKey grouping u = some pids ∧
      lookupKey resolved u = some m ∧ pid ∈ pids := by
  intro ks
  induction ks with
  | nil => intro acc pid h; left; exact h
  | cons v vs ih =>
    intro acc pid h
    rw [List.foldl_cons] at h
    rcases ih _ pid h with h2 | ⟨u, pids, m, hu, hg, hr, hp⟩
    · unfold assembleStep at h2
      cases hg : lookupKey grouping v with
      | none =>
        rw [hg] at h2
        left; exact h2
      | some pids =>
        rw [hg] at h2
        cases hr : lookupKey resolved v with
        | none => rw [hr] at h2; left; exact h2
        | some m =>
          rw [hr] at h2
          simp only [] at h2
          rcases keys_foldl_setKey_sub m pids acc.1 pid h2 with h3 | h3
          · left; exact h3
          · right
            exact ⟨v, pids, m, List.mem_cons_self v vs, hg, hr, h3⟩
    · right
      exact ⟨u, pids, m, List.mem_cons_of_mem v hu, hg, hr, hp⟩

theorem assemble_out_some {M : Type} (grouping : List (String × List String))
    (resolved : List (String × M)) (u pid : String) (m : M) (pids : List String)
    (hnodup : (resolved.map Prod.fst).Nodup)
    (hru : lookupKey resolved u = some m)
    (hg : lookupKey grouping u = some pids)
    (hpid : pid ∈ pids)
    (hother : ∀ u2 ∈ resolved.map Prod.fst, u2 ≠ u → ∀ pids2,
      lookupKey grouping u2 = some pids2 → pid ∉ pids2) :
    lookupKey (protein_id_mass_mapping grouping resolved).1 pid = some m := by
  have humem : u ∈ resolved.map Prod.fst := by
    rw [← lookupKey_isSome_iff_mem, hru]
    rfl
  obtain ⟨s, t, hst⟩ := List.append_of_mem humem
  unfold protein_id_mass_mapping
  rw [hst, List.foldl_append, List.foldl_cons]
  have hut : u ∉ t := by
    rw [hst] at hnodup
    exact (List.nodup_cons.mp (List.nodup_append.mp hnodup).2.1).1
  have ht : ∀ u2 ∈ t, ∀ pids2, lookupKey grouping u2 = some pids2 → pid ∉ pids2 := by
    intro u2 hu2 pids2 hg2
    refine hother u2 ?_ ?_ pids2 hg2
    · rw [hst]
      exact List.mem_append.mpr (Or.inr (List.mem_cons_of_mem u hu2))
    · intro he
      subst he
      exact hut hu2
  rw [assemble_preserve grouping resolved pid t _ ht]
  unfold assembleStep
  rw [hg, hru]
  simp only []
  rw [foldl_setKey_const m pids _ pid, if_pos hpid]

theorem assemble_not_mem {M : Type} (grouping : List (String × List String))
    (resolved : List (String × M)) (pid : String)
    (h : ∀ u2 ∈ resolved.map Prod.fst, ∀ pids2,
      lookupKey grouping u2 = some pids2 → pid ∉ pids2) :
    lookupKey (protein_id_mass_mapping grouping resolved).1 pid = none := by
  unfold protein_id_mass_mapping
  rw [assemble_preserve grouping resolved pid _ _ h]
  rfl

/-! ### Unfolding the whole run -/

theorem run_ok_elim {M : Type} (genes : List Gene) (cache : List (String × Option M))
    (fetch : String → Option M) (pf pn : String) (r : RunOk M)
    (h : get_protein_mass_mapping genes cache fetch pf pn = Except.ok r) :
    (resolveAll cache fetch
      ((uniprot_id_protein_id_mapping genes).map Prod.fst)).corrupt = none ∧
    r = { grouping := uniprot_id_protein_id_mapping genes
          resolved := (resolveAll cache fetch
            ((uniprot_id_protein_id_mapping genes).map Prod.fst)).resolved
          output := (protein_id_mass_mapping (uniprot_id_protein_id_mapping genes)
            (resolveAll cache fetch
              ((uniprot_id_protein_id_mapping genes).map Prod.fst)).resolved).1
          asmMessages := (protein_id_mass_mapping (uniprot_id_protein_id_mapping genes)
            (resolveAll cache fetch
              ((uniprot_id_protein_id_mapping genes).map Prod.fst)).resolved).2
          cacheAfter := (resolveAll cache fetch
            ((uniprot_id_protein_id_mapping genes).map Prod.fst)).writes.foldl
              (fun c p => setKey c p.1 (some p.2)) cache
          remoteCalls := (resolveAll cache fetch
            ((uniprot_id_protein_id_mapping genes).map Prod.fst)).remoteCalls
          delays := (resolveAll cache fetch
            ((uniprot_id_protein_id_mapping genes).map Prod.fst)).delays
          fetched := (resolveAll cache fetch
            ((uniprot_id_protein_id_mapping genes).map Prod.fst)).fetched
          outPath := standardize_folder pf ++ pn
            ++ "_protein_id_mass_mapping.json" } := by
  simp only [get_protein_mass_mapping] at h
  split at h
  · simp at h
  next heq =>
    injection h with h
    exact ⟨heq, h.symm⟩

theorem run_ok_intro {M : Type} (genes : List Gene) (cache : List (String × Option M))
    (fetch : String → Option M) (pf pn : String)
    (hc : (resolveAll cache fetch
      ((uniprot_id_protein_id_mapping genes).map Prod.fst)).corrupt = none) :
    get_protein_mass_mapping genes cache fetch pf pn =
    Except.ok
      { grouping := uniprot_id_protein_id_mapping genes
        resolved := (resolveAll cache fetch
          ((uniprot_id_protein_id_mapping genes).map Prod.fst)).resolved
        output := (protein_id_mass_mapping (uniprot_id_protein_id_mapping genes)
          (resolveAll cache fetch
            ((uniprot_id_protein_id_mapping genes).map Prod.fst)).resolved).1
        asmMessages := (protein_id_mass_mapping (uniprot_id_protein_id_mapping genes)
          (resolveAll cache fetch
            ((uniprot_id_protein_id_mapping genes).map Prod.fst)).resolved).2
        cacheAfter := (resolveAll cache fetch
          ((uniprot_id_protein_id_mapping genes).map Prod.fst)).writes.foldl
            (fun c p => setKey c p.1 (some p.2)) cache
        remoteCalls := (resolveAll cache fetch
          ((uniprot_id_protein_id_mapping genes).map Prod.fst)).remoteCalls
        delays := (resolveAll cache fetch
          ((uniprot_id_protein_id_mapping genes).map Prod.fst)).delays
        fetched := (resolveAll cache fetch
          ((uniprot_id_protein_id_mapping genes).map Prod.fst)).fetched
        outPath := standardize_folder pf ++ pn
          ++ "_protein_id_mass_mapping.json" } := by
  simp only [get_protein_mass_mapping]
  split
  next heq => rw [hc] at heq; simp at heq
  next heq => rfl

theorem run_error_intro {M : Type} (genes : List Gene) (cache : List (String × Option M))
    (fetch : String → Option M) (pf pn : String) (v : String)
    (hc : (resolveAll cache fetch
      ((uniprot_id_protein_id_mapping genes).map Prod.fst)).corrupt = some v) :
    get_protein_mass_mapping genes cache fetch pf pn = Except.error v := by
  simp only [get_protein_mass_mapping]
  split
  next w heq =>
    rw [hc] at heq
    injection heq with heq
    rw [heq]
  next heq => rw [hc] at heq; simp at heq

/-! ### Characterizing a run over uncached and fully cached accessions -/

theorem fetchSuccesses_cons {M : Type} (fetch : String → Option M) (v : String)
    (vs : List String) :
    fetchSuccesses fetch (v :: vs) =
      (match fetch v with
       | some m => (v, m) :: fetchSuccesses fetch vs
       | none => fetchSuccesses fetch vs) := by
  cases hf : fetch v <;> simp [fetchSuccesses, List.filterMap_cons, hf]

theorem keys_fetchSuccesses {M : Type} (fetch : String → Option M) :
    ∀ us : List String,
    (fetchSuccesses fetch us).map Prod.fst = us.filter (fun u => (fetch u).isSome) := by
  intro us
  induction us with
  | nil => rfl
  | cons v vs ih =>
    rw [fetchSuccesses_cons]
    cases hf : fetch v <;> simp [List.filter_cons, hf, ih]

theorem nodup_keys_fetchSuccesses {M : Type} (fetch : String → Option M)
    (us : List String) (h : us.Nodup) :
    ((fetchSuccesses fetch us).map Prod.fst).Nodup := by
  rw [keys_fetchSuccesses]
  exact h.filter _

theorem lookup_fetchSuccesses {M : Type} (fetch : String → Option M) :
    ∀ (us : List String) (u : String), us.Nodup → u ∈ us →
    lookupKey (fetchSuccesses fetch us) u = fetch u := by
  intro us
  induction us with
  | nil => intro u _ h; simp at h
  | cons v vs ih =>
    intro u hnodup hu
    obtain ⟨hv, hvs⟩ := List.nodup_cons.mp hnodup
    rw [fetchSuccesses_cons]
    by_cases huv : u = v
    · subst huv
      cases hf : fetch u with
      | some m => simp [lookupKey]
      | none =>
        simp only []
        rw [lookupKey_eq_none_iff, keys_fetchSuccesses]
        intro hmem
        exact hv (List.mem_of_mem_filter hmem)
    · have huvs : u ∈ vs := by
        rcases List.mem_cons.mp hu with h | h
        · exact absurd h huv
        · exact h
      cases hf : fetch v with
      | some m =>
        simp only [lookupKey]
        rw [if_neg (fun hh => huv hh.symm)]
        exact ih u hvs huvs
      | none => exact ih u hvs huvs

theorem foldl_setKey_fresh {M : Type} :
    ∀ (l : List (String × M)) (c : List (String × Option M)),
    (∀ p ∈ l, lookupKey c (Prod.fst (α := String) (β := M) p) = none) →
    (l.map Prod.fst).Nodup →
    l.foldl (fun c2 p => setKey c2 p.1 (some p.2)) c
      = c ++ l.map (fun p => (p.1, some p.2)) := by
  intro l
  induction l with
  | nil => intro c _ _; simp
  | cons p ps ih =>
    intro c hc hnodup
    rw [List.map_cons] at hnodup
    obtain ⟨hp, hps⟩ := List.nodup_cons.mp hnodup
    rw [List.foldl_cons]
    have hfresh : containsKey c p.1 = false := by
      rw [containsKey_eq_isSome_lookupKey, hc p (List.mem_cons_self p ps)]
      rfl
    rw [setKey_of_not_containsKey c p.1 (some p.2) hfresh]
    rw [ih (c ++ [(p.1, some p.2)]) ?_ hps]
    · simp
    · intro q hq
      rw [lookupKey_append_of_none c _ _ (hc q (List.mem_cons_of_mem p hq))]
      have hne : ¬ (p.1 = q.1) := fun hh => hp (hh ▸ List.mem_map_of_mem Prod.fst hq)
      simp [lookupKey, hne]

theorem foldl_resolve_all_miss {M : Type} (cache : List (String × Option M))
    (fetch : String → Option M) :
    ∀ (us : List String) (st : ResolverState M), us.Nodup →
    (∀ u ∈ us, lookupKey cache u = none) →
    (∀ u ∈ us, lookupKey st.resolved u = none) →
    st.corrupt = none →
    (us.foldl (resolveStep cache fetch) st).resolved
      = st.resolved ++ fetchSuccesses fetch us ∧
    (us.foldl (resolveStep cache fetch) st).writes
      = st.writes ++ fetchSuccesses fetch us ∧
    (us.foldl (resolveStep cache fetch) st).corrupt = none := by
  intro us
  induction us with
  | nil => intro st _ _ _ hcor; exact ⟨by simp [fetchSuccesses], by simp [fetchSuccesses], hcor⟩
  | cons v vs ih =>
    intro st hnodup hcache hres hcor
    obtain ⟨hv, hvs⟩ := List.nodup_cons.mp hnodup
    have hcv : lookupKey cache v = none := hcache v (List.mem_cons_self v vs)
    have hrv : lookupKey st.resolved v = none := hres v (List.mem_cons_self v vs)
    have hcontains : ¬ containsKey cache v = true := by
      rw [containsKey_eq_isSome_lookupKey, hcv]
      simp
    have hrescontains : containsKey st.resolved v = false := by
      rw [containsKey_eq_isSome_lookupKey, hrv]
      rfl
    rw [List.foldl_cons]
    cases hf : fetch v with
    | some m =>
      have hstep : resolveStep cache fetch st v =
          { st with resolved := st.resolved ++ [(v, m)],
                    writes := st.writes ++ [(v, m)],
                    fetched := st.fetched ++ [v],
                    remoteCalls := st.remoteCalls + 1,
                    delays := st.delays + 1 } := by
        unfold resolveStep
        rw [if_neg (by simp [hcor]), if_neg hcontains]
        simp only [hf, lookupKey_setKey_self]
        rw [setKey_of_not_containsKey st.resolved v m hrescontains]
      rw [hstep]
      have hres2 : ∀ u ∈ vs, lookupKey (st.resolved ++ [(v, m)]) u = none := by
        intro u hu
        rw [lookupKey_append_of_none st.resolved _ u
          (hres u (List.mem_cons_of_mem v hu))]
        have hne : ¬ (v = u) := fun hh => hv (hh ▸ hu)
        simp [lookupKey, hne]
      obtain ⟨h1, h2, h3⟩ :=
        ih { st with resolved := st.resolved ++ [(v, m)],
                     writes := st.writes ++ [(v, m)],
                     fetched := st.fetched ++ [v],
                     remoteCalls := st.remoteCalls + 1,
                     delays := st.delays + 1 } hvs
          (fun u hu => hcache u (List.mem_cons_of_mem v hu)) hres2 hcor
      refine ⟨?_, ?_, h3⟩
      · rw [h1, fetchSuccesses_cons, hf]
        simp
      · rw [h2, fetchSuccesses_cons, hf]
        simp
    | none =>
      have hstep : resolveStep cache fetch st v =
          { st with fetched := st.fetched ++ [v],
                    remoteCalls := st.remoteCalls + 1,
                    delays := st.delays + 1 } := by
        unfold resolveStep
        rw [if_neg (by simp [hcor]), if_neg hcontains]
        simp only [hf, hrv]
      rw [hstep]
      obtain ⟨h1, h2, h3⟩ :=
        ih { st with fetched := st.fetched ++ [v],
                     remoteCalls := st.remoteCalls + 1,
                     delays := st.delays + 1 } hvs
          (fun u hu => hcache u (List.mem_cons_of_mem v hu))
          (fun u hu => hres u (List.mem_cons_of_mem v hu)) hcor
      refine ⟨?_, ?_, h3⟩
      · rw [h1, fetchSuccesses_cons, hf]
      · rw [h2, fetchSuccesses_cons, hf]

theorem foldl_resolve_all_cached {M : Type} (cache : List (String × Option M))
    (fetch : String → Option M) :
    ∀ (us : List String) (st : ResolverState M), us.Nodup →
    (∀ u ∈ us, lookupKey cache u = (fetch u).map some) →
    (∀ u ∈ us, lookupKey st.resolved u = none) →
    st.corrupt = none →
    (us.foldl (resolveStep cache fetch) st).resolved
      = st.resolved ++ fetchSuccesses fetch us ∧
    (us.foldl (resolveStep cache fetch) st).writes = st.writes ∧
    (us.foldl (resolveStep cache fetch) st).corrupt = none := by
  intro us
  induction us with
  | nil => intro st _ _ _ hcor; exact ⟨by simp [fetchSuccesses], rfl, hcor⟩
  | cons v vs ih =>
    intro st hnodup hcache hres hcor
    obtain ⟨hv, hvs⟩ := List.nodup_cons.mp hnodup
    have hcv : lookupKey cache v = (fetch v).map some := hcache v (List.mem_cons_self v vs)
    have hrv : lookupKey st.resolved v = none := hres v (List.mem_cons_self v vs)
    have hrescontains : containsKey st.resolved v = false := by
      rw [containsKey_eq_isSome_lookupKey, hrv]
      rfl
    rw [List.foldl_cons]
    cases hf : fetch v with
    | some m =>
      have hcv2 : lookupKey cache v = some (some m) := by rw [hcv, hf]; rfl
      have hcontains : containsKey cache v = true := by
        rw [containsKey_eq_isSome_lookupKey, hcv2]
        rfl
      have hstep : resolveStep cache fetch st v =
          { st with resolved := st.resolved ++ [(v, m)] } := by
        unfold resolveStep
        rw [if_neg (by simp [hcor]), if_pos hcontains]
        simp only [hcv2]
        rw [setKey_of_not_containsKey st.resolved v m hrescontains]
      rw [hstep]
      have hres2 : ∀ u ∈ vs, lookupKey (st.resolved ++ [(v, m)]) u = none := by
        intro u hu
        rw [lookupKey_append_of_none st.resolved _ u
          (hres u (List.mem_cons_of_mem v hu))]
        have hne : ¬ (v = u) := fun hh => hv (hh ▸ hu)
        simp [lookupKey, hne]
      obtain ⟨h1, h2, h3⟩ :=
        ih { st with resolved := st.resolved ++ [(v, m)] } hvs
          (fun u hu => hcache u (List.mem_cons_of_mem v hu)) hres2 hcor
      refine ⟨?_, h2, h3⟩
      rw [h1, fetchSuccesses_cons, hf]
      simp
    | none =>
      have hcv2 : lookupKey cache v = none := by rw [hcv, hf]; rfl
      have hcontains : ¬ containsKey cache v = true := by
        rw [containsKey_eq_isSome_lookupKey, hcv2]
        simp
      have hstep : resolveStep cache fetch st v =
          { st with fetched := st.fetched ++ [v],
                    remoteCalls := st.remoteCalls + 1,
                    delays := st.delays + 1 } := by
        unfold resolveStep
        rw [if_neg (by simp [hcor]), if_neg hcontains]
        simp only [hf, hrv]
      rw [hstep]
      obtain ⟨h1, h2, h3⟩ :=
        ih { st with fetched := st.fetched ++ [v],
                     remoteCalls := st.remoteCalls + 1,
                     delays := st.delays + 1 } hvs
          (fun u hu => hcache u (List.mem_cons_of_mem v hu))
          (fun u hu => hres u (List.mem_cons_of_mem v hu)) hcor
      refine ⟨?_, h2, h3⟩
      rw [h1, fetchSuccesses_cons, hf]

/-! ### The claims -/

/-- C2: on the input records `g1 ↦ P1`, `g2 ↦ P2`, `g3` (no annotation), with
an empty cache and a remote service returning mass 10.5 for `P1` and failing
for `P2`, the resulting output mapping is exactly `{"g1": 10.5}`; `g2` and
`g3` are absent. -/
theorem c2_end_to_end_example :
    (get_protein_mass_mapping genesEx ([] : List (String × Option Rat)) fetchEx
      "proj" "test").toOption.map (fun r => r.output)
    = some [("g1", (10.5 : Rat))] := by
  rfl

/-- C4: whenever every accession of the grouping is present in the cache, the
resolver issues zero remote calls and incurs zero throttle delays (and fetches
nothing); each cache hit short-circuits before the network call and the
delay. -/
theorem c4_full_cache_no_calls_no_delay {M : Type} (genes : List Gene)
    (cache : List (String × Option M)) (fetch : String → Option M)
    (h : ∀ u ∈ (uniprot_id_protein_id_mapping genes).map Prod.fst,
      containsKey cache u = true) :
    (resolveAll cache fetch
      ((uniprot_id_protein_id_mapping genes).map Prod.fst)).remoteCalls = 0 ∧
    (resolveAll cache fetch
      ((uniprot_id_protein_id_mapping genes).map Prod.fst)).delays = 0 ∧
    (resolveAll cache fetch
      ((uniprot_id_protein_id_mapping genes).map Prod.fst)).fetched = [] := by
  obtain ⟨h1, h2, h3⟩ := counts_of_all_cached cache fetch
    ((uniprot_id_protein_id_mapping genes).map Prod.fst) (initState M) h
  exact ⟨h1, h2, h3⟩

/-- Witness for C4 at the example model and the fully populated cache. -/
theorem c4_witness :
    (∀ u ∈ (uniprot_id_protein_id_mapping genesEx).map Prod.fst,
      containsKey cacheFull u = true) ∧
    (resolveAll cacheFull fetchEx
      ((uniprot_id_protein_id_mapping genesEx).map Prod.fst)).remoteCalls = 0 ∧
    (resolveAll cacheFull fetchEx
      ((uniprot_id_protein_id_mapping genesEx).map Prod.fst)).delays = 0 ∧
    (resolveAll cacheFull fetchEx
      ((uniprot_id_protein_id_mapping genesEx).map Prod.fst)).fetched = [] :=
  ⟨by decide, c4_full_cache_no_calls_no_delay genesEx cacheFull fetchEx (by decide)⟩

/-- C7: a cache record that exists but cannot be deserialized is fatal: the
run aborts with an error naming a corrupt accession, that accession is never
fetched from the remote service and its cache record is never overwritten. -/
theorem c7_cache_corrupt_is_fatal {M : Type} (genes : List Gene)
    (cache : List (String × Option M)) (fetch : String → Option M) (pf pn u : String)
    (hmem : u ∈ (uniprot_id_protein_id_mapping genes).map Prod.fst)
    (hbad : lookupKey cache u = some none) :
    ∃ v, get_protein_mass_mapping genes cache fetch pf pn = Except.error v ∧
      lookupKey cache v = some none ∧
      v ∉ (resolveAll cache fetch
        ((uniprot_id_protein_id_mapping genes).map Prod.fst)).fetched ∧
      containsKey (resolveAll cache fetch
        ((uniprot_id_protein_id_mapping genes).map Prod.fst)).writes v = false := by
  have hsome := foldl_corrupt_isSome_of_bad cache fetch u hbad
    ((uniprot_id_protein_id_mapping genes).map Prod.fst) (initState M) hmem
  obtain ⟨v, hv⟩ := Option.isSome_iff_exists.mp hsome
  obtain ⟨g1, g2, g3⟩ := foldl_cache_inv cache fetch
    ((uniprot_id_protein_id_mapping genes).map Prod.fst) (initState M)
    (by intro w hw; simp [initState] at hw)
    (by intro p hp; simp [initState] at hp)
    (by intro w hw; simp [initState] at hw)
  refine ⟨v, run_error_intro genes cache fetch pf pn v hv, g3 v hv, ?_, ?_⟩
  · intro hmem2
    have h4 := g3 v hv
    rw [g1 v hmem2] at h4
    exact absurd h4 (by simp)
  · cases hh : containsKey (resolveAll cache fetch
        ((uniprot_id_protein_id_mapping genes).map Prod.fst)).writes v with
    | false => rfl
    | true =>
      exfalso
      have hmemk := (containsKey_iff_mem _ _).1 hh
      obtain ⟨p, hp, hpv⟩ := List.mem_map.mp hmemk
      have h5 := g2 p hp
      rw [hpv] at h5
      have h6 := g3 v hv
      rw [h5] at h6
      exact absurd h6 (by simp)

/-- Witness for C7 at the example model and the corrupt cache record. -/
theorem c7_witness :
    "P1" ∈ (uniprot_id_protein_id_mapping genesEx).map Prod.fst ∧
    lookupKey cacheBad "P1" = some none ∧
    (∃ v, get_protein_mass_mapping genesEx cacheBad fetchEx "proj" "test"
        = Except.error v ∧
      lookupKey cacheBad v = some none ∧
      v ∉ (resolveAll cacheBad fetchEx
        ((uniprot_id_protein_id_mapping genesEx).map Prod.fst)).fetched ∧
      containsKey (resolveAll cacheBad fetchEx
        ((uniprot_id_protein_id_mapping genesEx).map Prod.fst)).writes v = false) :=
  ⟨by decide, by rfl,
    c7_cache_corrupt_is_fatal genesEx cacheBad fetchEx "proj" "test" "P1"
      (by decide) (by rfl)⟩

/-- C8: evaluation at the failing input.  On the example run the accession
`P2` is in the grouping and stays unresolved, yet the assembler emits no
message at all: the `No mass found` branch never fires, contrary to the
claim that each unresolved accession is reported. -/
theorem c8_no_message_for_unresolved_accession :
    (get_protein_mass_mapping genesEx ([] : List (String × Option Rat)) fetchEx
      "proj" "test").toOption.map
      (fun r => (r.asmMessages, containsKey r.resolved "P2",
        containsKey r.grouping "P2"))
    = some ([], false, true) := by
  rfl

/-- C9: the output file path is the normalized folder, then the project name,
then the fixed suffix, and writing the mapping there overwrites whatever the
file system previously held at that path. -/
theorem c9_output_path_and_overwrite {M : Type} (genes : List Gene)
    (cache : List (String × Option M)) (fetch : String → Option M) (pf pn : String)
    (r : RunOk M) (fs : List (String × List (String × M)))
    (h : get_protein_mass_mapping genes cache fetch pf pn = Except.ok r) :
    r.outPath = standardize_folder pf ++ pn ++ "_protein_id_mass_mapping.json" ∧
    lookupKey (json_write fs r.outPath r.output) r.outPath = some r.output := by
  obtain ⟨hcor, hr⟩ := run_ok_elim genes cache fetch pf pn r h
  subst hr
  exact ⟨rfl, lookupKey_setKey_self fs _ _⟩

/-- A file system already holding stale content at the example output path. -/
def fsPrior : List (String × List (String × Rat)) :=
  [("proj/test_protein_id_mass_mapping.json", [("stale", (1 : Rat))])]

/-- Witness for C9 at the example run over a file system with stale content
at the output path. -/
theorem c9_witness :
    rEx.outPath = standardize_folder "proj" ++ "test"
      ++ "_protein_id_mass_mapping.json" ∧
    lookupKey (json_write fsPrior rEx.outPath rEx.output) rEx.outPath
      = some rEx.output :=
  c9_output_path_and_overwrite genesEx [] fetchEx "proj" "test" rEx fsPrior (by rfl)

/-- C10: in every successful run, each accession of the resolved-mass mapping
is also a key of the grouping, so the assembler's lookup never fails and its
`No mass found` branch is unreachable: the assembly messages are empty. -/
theorem c10_resolved_keys_in_grouping_no_messages {M : Type} (genes : List Gene)
    (cache : List (String × Option M)) (fetch : String → Option M) (pf pn : String)
    (r : RunOk M) (h : get_protein_mass_mapping genes cache fetch pf pn = Except.ok r) :
    (∀ u ∈ r.resolved.map Prod.fst, u ∈ r.grouping.map Prod.fst) ∧
    r.asmMessages = [] := by
  obtain ⟨hcor, hr⟩ := run_ok_elim genes cache fetch pf pn r h
  subst hr
  constructor
  · intro u hu
    rcases foldl_resolved_keys_sub cache fetch
      ((uniprot_id_protein_id_mapping genes).map Prod.fst) (initState M) u hu with h2 | h2
    · simp [initState] at h2
    · exact h2
  · show (protein_id_mass_mapping (uniprot_id_protein_id_mapping genes)
      (resolveAll cache fetch
        ((uniprot_id_protein_id_mapping genes).map Prod.fst)).resolved).2 = []
    refine assemble_msgs_aux _ _ _ ([], []) ?_
    intro u hu
    rcases foldl_resolved_keys_sub cache fetch
      ((uniprot_id_protein_id_mapping genes).map Prod.fst) (initState M) u hu with h2 | h2
    · simp [initState] at h2
    · rw [lookupKey_isSome_iff_mem]
      exact h2

/-- Witness for C10 at the example run. -/
theorem c10_witness :
    (∀ u ∈ rEx.resolved.map Prod.fst, u ∈ rEx.grouping.map Prod.fst) ∧
    rEx.asmMessages = [] :=
  c10_resolved_keys_in_grouping_no_messages genesEx [] fetchEx "proj" "test" rEx (by rfl)

/-- C1: every key of the final output mapping is the id of a gene record that
carries a `"uniprot"` annotation whose accession was resolved (from cache or
network); in particular a gene without such an annotation contributes no
key. -/
theorem c1_output_keys_are_annotated_and_resolved {M : Type} (genes : List Gene)
    (cache : List (String × Option M)) (fetch : String → Option M) (pf pn : String)
    (r : RunOk M) (h : get_protein_mass_mapping genes cache fetch pf pn = Except.ok r) :
    ∀ pid ∈ r.output.map Prod.fst, ∃ g, g ∈ genes ∧ g.id = pid ∧
      ∃ u, lookupKey g.annot "uniprot" = some u ∧
        (lookupKey r.resolved u).isSome = true := by
  obtain ⟨hcor, hr⟩ := run_ok_elim genes cache fetch pf pn r h
  subst hr
  intro pid hpid
  rcases assemble_keys_aux (uniprot_id_protein_id_mapping genes)
      (resolveAll cache fetch
        ((uniprot_id_protein_id_mapping genes).map Prod.fst)).resolved
      ((resolveAll cache fetch
        ((uniprot_id_protein_id_mapping genes).map Prod.fst)).resolved.map Prod.fst)
      ([], []) pid hpid with h2 | ⟨u, pids, m, hu, hg, hres, hp⟩
  · simp at h2
  · obtain ⟨g, hgmem, hgid, hgann⟩ := grouping_mem genes u pids pid hg hp
    exact ⟨g, hgmem, hgid, u, hgann, by rw [hres]; rfl⟩

/-- Witness for C1 at the example run and the output key `g1`. -/
theorem c1_witness :
    "g1" ∈ rEx.output.map Prod.fst ∧
    (∃ g, g ∈ genesEx ∧ g.id = "g1" ∧
      ∃ u, lookupKey g.annot "uniprot" = some u ∧
        (lookupKey rEx.resolved u).isSome = true) :=
  ⟨by decide,
    c1_output_keys_are_annotated_and_resolved genesEx [] fetchEx "proj" "test" rEx
      (by rfl) "g1" (by decide)⟩

/-- C5: when gene ids are pairwise distinct, every local identifier grouped
under an accession that resolved to mass `m` is mapped to that same `m` in the
output. -/
theorem c5_fan_out_same_mass {M : Type} (genes : List Gene)
    (cache : List (String × Option M)) (fetch : String → Option M) (pf pn : String)
    (r : RunOk M) (u pid : String) (m : M) (pids : List String)
    (hnodup : (genes.map Gene.id).Nodup)
    (h : get_protein_mass_mapping genes cache fetch pf pn = Except.ok r)
    (hres : lookupKey r.resolved u = some m)
    (hg : lookupKey r.grouping u = some pids)
    (hpid : pid ∈ pids) :
    lookupKey r.output pid = some m := by
  obtain ⟨hcor, hr⟩ := run_ok_elim genes cache fetch pf pn r h
  subst hr
  refine assemble_out_some (uniprot_id_protein_id_mapping genes)
    (resolveAll cache fetch
      ((uniprot_id_protein_id_mapping genes).map Prod.fst)).resolved
    u pid m pids ?_ hres hg hpid ?_
  · exact foldl_nodup_keys_resolved cache fetch
      ((uniprot_id_protein_id_mapping genes).map Prod.fst) (initState M)
      (by simp [initState])
  · intro u2 hu2 hne pids2 hg2 hpmem
    obtain ⟨gU, hgUmem, hgUid, hgUann⟩ := grouping_mem genes u pids pid hg hpid
    obtain ⟨g2, hg2mem, hg2id, hg2ann⟩ := grouping_mem genes u2 pids2 pid hg2 hpmem
    have heq : gU = g2 := List.inj_on_of_nodup_map hnodup hgUmem hg2mem
      (by rw [hgUid, hg2id])
    rw [← heq, hgUann] at hg2ann
    injection hg2ann with h7
    exact hne h7.symm

/-- Witness for C5 at the fan-out run: both `g1` and `g2` share accession
`P1`, which resolves to mass 55.2. -/
theorem c5_witness :
    (genesFan.map Gene.id).Nodup ∧
    lookupKey rFan.output "g2" = some (55.2 : Rat) :=
  ⟨by decide,
    c5_fan_out_same_mass genesFan [] fetchFan "proj" "test" rFan "P1" "g2"
      (55.2 : Rat) ["g1", "g2"] (by decide) (by rfl) (by rfl) (by rfl) (by decide)⟩

/-- C3: for two accessions `A` and `B` absent from a cache whose records are
all readable, if the remote service fails for `A` and answers mass `m` for
`B` (with pairwise-distinct gene ids), then the run completes normally, `A`
is attempted at most once (no retry), every local identifier grouped under
`B` is mapped to `m`, and no local identifier grouped under `A` appears in
the output. -/
theorem c3_partial_failure_containment {M : Type} (genes : List Gene)
    (cache : List (String × Option M)) (fetch : String → Option M)
    (pf pn A B : String) (m : M)
    (hnodup : (genes.map Gene.id).Nodup)
    (hclean : ∀ w, lookupKey cache w ≠ some none)
    (hA : lookupKey cache A = none) (hB : lookupKey cache B = none)
    (hfA : fetch A = none) (hfB : fetch B = some m) :
    ∃ r, get_protein_mass_mapping genes cache fetch pf pn = Except.ok r ∧
      r.fetched.count A ≤ 1 ∧
      (∀ pids, lookupKey r.grouping B = some pids →
        ∀ pid ∈ pids, lookupKey r.output pid = some m) ∧
      (∀ pids, lookupKey r.grouping A = some pids →
        ∀ pid ∈ pids, lookupKey r.output pid = none) := by
  have husnodup := nodup_keys_grouping genes
  have hcor : (resolveAll cache fetch
      ((uniprot_id_protein_id_mapping genes).map Prod.fst)).corrupt = none :=
    foldl_corrupt_none cache fetch hclean
      ((uniprot_id_protein_id_mapping genes).map Prod.fst) (initState M) rfl
  refine ⟨_, run_ok_intro genes cache fetch pf pn hcor, ?_, ?_, ?_⟩
  · show (resolveAll cache fetch
      ((uniprot_id_protein_id_mapping genes).map Prod.fst)).fetched.count A ≤ 1
    obtain ⟨t, ht, hs⟩ := foldl_fetched_sublist cache fetch
      ((uniprot_id_protein_id_mapping genes).map Prod.fst) (initState M)
    show (((uniprot_id_protein_id_mapping genes).map Prod.fst).foldl
      (resolveStep cache fetch) (initState M)).fetched.count A ≤ 1
    rw [ht]
    simp only [initState, List.nil_append]
    exact le_trans (hs.count_le A) (List.nodup_iff_count_le_one.mp husnodup A)
  · intro pids hgB pid hpid
    have hgB2 : lookupKey (uniprot_id_protein_id_mapping genes) B = some pids := hgB
    have hBmem : B ∈ (uniprot_id_protein_id_mapping genes).map Prod.fst := by
      rw [← lookupKey_isSome_iff_mem, hgB2]
      rfl
    have hresB : lookupKey (resolveAll cache fetch
        ((uniprot_id_protein_id_mapping genes).map Prod.fst)).resolved B = some m :=
      foldl_resolved_of_success cache fetch B m hclean hB hfB
        ((uniprot_id_protein_id_mapping genes).map Prod.fst) (initState M) rfl hBmem
    show lookupKey (protein_id_mass_mapping (uniprot_id_protein_id_mapping genes)
      (resolveAll cache fetch
        ((uniprot_id_protein_id_mapping genes).map Prod.fst)).resolved).1 pid = some m
    refine assemble_out_some (uniprot_id_protein_id_mapping genes)
      (resolveAll cache fetch
        ((uniprot_id_protein_id_mapping genes).map Prod.fst)).resolved
      B pid m pids ?_ hresB hgB2 hpid ?_
    · exact foldl_nodup_keys_resolved cache fetch
        ((uniprot_id_protein_id_mapping genes).map Prod.fst) (initState M)
        (by simp [initState])
    · intro u2 hu2 hne pids2 hg2 hpmem
      obtain ⟨gB, hgBmem, hgBid, hgBann⟩ := grouping_mem genes B pids pid hgB2 hpid
      obtain ⟨g2, hg2mem, hg2id, hg2ann⟩ := grouping_mem genes u2 pids2 pid hg2 hpmem
      have heq : gB = g2 := List.inj_on_of_nodup_map hnodup hgBmem hg2mem
        (by rw [hgBid, hg2id])
      rw [← heq, hgBann] at hg2ann
      injection hg2ann with h7
      exact hne h7.symm
  · intro pids hgA pid hpid
    have hgA2 : lookupKey (uniprot_id_protein_id_mapping genes) A = some pids := hgA
    have hresA : lookupKey (resolveAll cache fetch
        ((uniprot_id_protein_id_mapping genes).map Prod.fst)).resolved A = none :=
      foldl_not_resolved cache fetch A hA hfA
        ((uniprot_id_protein_id_mapping genes).map Prod.fst) (initState M) rfl
    show lookupKey (protein_id_mass_mapping (uniprot_id_protein_id_mapping genes)
      (resolveAll cache fetch
        ((uniprot_id_protein_id_mapping genes).map Prod.fst)).resolved).1 pid = none
    refine assemble_not_mem (uniprot_id_protein_id_mapping genes)
      (resolveAll cache fetch
        ((uniprot_id_protein_id_mapping genes).map Prod.fst)).resolved pid ?_
    intro u2 hu2 pids2 hg2 hpmem
    have hu2A : u2 ≠ A := by
      intro he
      subst he
      rw [lookupKey_eq_none_iff] at hresA
      exact hresA hu2
    obtain ⟨gA, hgAmem, hgAid, hgAann⟩ := grouping_mem genes A pids pid hgA2 hpid
    obtain ⟨g2, hg2mem, hg2id, hg2ann⟩ := grouping_mem genes u2 pids2 pid hg2 hpmem
    have heq : gA = g2 := List.inj_on_of_nodup_map hnodup hgAmem hg2mem
      (by rw [hgAid, hg2id])
    rw [← heq, hgAann] at hg2ann
    injection hg2ann with h7
    exact hu2A h7.symm

/-- Witness for C3 at the example model, with `A := P2` failing and
`B := P1` succeeding. -/
theorem c3_witness :
    (genesEx.map Gene.id).Nodup ∧
    (∀ w, lookupKey ([] : List (String × Option Rat)) w ≠ some none) ∧
    fetchEx "P2" = none ∧ fetchEx "P1" = some (10.5 : Rat) ∧
    (∃ r, get_protein_mass_mapping genesEx ([] : List (String × Option Rat)) fetchEx
        "proj" "test" = Except.ok r ∧
      r.fetched.count "P2" ≤ 1 ∧
      (∀ pids, lookupKey r.grouping "P1" = some pids →
        ∀ pid ∈ pids, lookupKey r.output pid = some (10.5 : Rat)) ∧
      (∀ pids, lookupKey r.grouping "P2" = some pids →
        ∀ pid ∈ pids, lookupKey r.output pid = none)) :=
  ⟨by decide, fun w => by simp [lookupKey], by rfl, by rfl,
    c3_partial_failure_containment genesEx [] fetchEx "proj" "test" "P2" "P1"
      (10.5 : Rat) (by decide) (fun w => by simp [lookupKey]) (by rfl) (by rfl)
      (by rfl) (by rfl)⟩

/-- C6: running the workflow twice on the same model with an empty initial
cache and a deterministic remote service gives a second run whose output,
resolved masses and final cache contents are identical to the first run's;
in particular the cache is idempotent under re-resolution. -/
theorem c6_second_run_identical {M : Type} (genes : List Gene)
    (fetch : String → Option M) (pf pn : String) :
    ∃ r1 r2 : RunOk M,
      get_protein_mass_mapping genes ([] : List (String × Option M)) fetch pf pn
        = Except.ok r1 ∧
      get_protein_mass_mapping genes r1.cacheAfter fetch pf pn = Except.ok r2 ∧
      r2.output = r1.output ∧ r2.resolved = r1.resolved ∧
      r2.cacheAfter = r1.cacheAfter := by
  have husnodup := nodup_keys_grouping genes
  obtain ⟨h1res, h1wr, h1cor⟩ := foldl_resolve_all_miss
    ([] : List (String × Option M)) fetch
    ((uniprot_id_protein_id_mapping genes).map Prod.fst) (initState M) husnodup
    (fun u _ => rfl) (fun u _ => rfl) rfl
  have h1res2 : (resolveAll ([] : List (String × Option M)) fetch
      ((uniprot_id_protein_id_mapping genes).map Prod.fst)).resolved
      = fetchSuccesses fetch ((uniprot_id_protein_id_mapping genes).map Prod.fst) :=
    h1res.trans (List.nil_append _)
  have h1wr2 : (resolveAll ([] : List (String × Option M)) fetch
      ((uniprot_id_protein_id_mapping genes).map Prod.fst)).writes
      = fetchSuccesses fetch ((uniprot_id_protein_id_mapping genes).map Prod.fst) :=
    h1wr.trans (List.nil_append _)
  obtain ⟨r1, hrun1⟩ : ∃ r1, get_protein_mass_mapping genes
      ([] : List (String × Option M)) fetch pf pn = Except.ok r1 :=
    ⟨_, run_ok_intro genes [] fetch pf pn h1cor⟩
  obtain ⟨hc1, hr1⟩ := run_ok_elim genes [] fetch pf pn r1 hrun1
  have hkeysF : ((fetchSuccesses fetch
      ((uniprot_id_protein_id_mapping genes).map Prod.fst)).map Prod.fst).Nodup :=
    nodup_keys_fetchSuccesses fetch _ husnodup
  have hca1 : r1.cacheAfter = (fetchSuccesses fetch
      ((uniprot_id_protein_id_mapping genes).map Prod.fst)).map
        (fun p => (p.1, some p.2)) := by
    rw [hr1]
    show (resolveAll ([] : List (String × Option M)) fetch
      ((uniprot_id_protein_id_mapping genes).map Prod.fst)).writes.foldl
        (fun c p => setKey c p.1 (some p.2)) ([] : List (String × Option M)) = _
    rw [h1wr2]
    exact (foldl_setKey_fresh _ [] (fun p _ => rfl) hkeysF).trans (List.nil_append _)
  have hlook : ∀ u ∈ (uniprot_id_protein_id_mapping genes).map Prod.fst,
      lookupKey ((fetchSuccesses fetch
        ((uniprot_id_protein_id_mapping genes).map Prod.fst)).map
          (fun p => (p.1, some p.2))) u = (fetch u).map some := by
    intro u hu
    rw [lookupKey_map_snd, lookup_fetchSuccesses fetch _ u husnodup hu]
  obtain ⟨h2res, h2wr, h2cor⟩ := foldl_resolve_all_cached
    ((fetchSuccesses fetch
      ((uniprot_id_protein_id_mapping genes).map Prod.fst)).map
        (fun p => (p.1, some p.2))) fetch
    ((uniprot_id_protein_id_mapping genes).map Prod.fst) (initState M) husnodup
    hlook (fun u _ => rfl) rfl
  have hcor2 : (resolveAll r1.cacheAfter fetch
      ((uniprot_id_protein_id_mapping genes).map Prod.fst)).corrupt = none := by
    rw [hca1]
    exact h2cor
  obtain ⟨r2, hrun2⟩ : ∃ r2, get_protein_mass_mapping genes r1.cacheAfter fetch pf pn
      = Except.ok r2 :=
    ⟨_, run_ok_intro genes r1.cacheAfter fetch pf pn hcor2⟩
  obtain ⟨hc2, hr2⟩ := run_ok_elim genes r1.cacheAfter fetch pf pn r2 hrun2
  have hres2 : (resolveAll r1.cacheAfter fetch
      ((uniprot_id_protein_id_mapping genes).map Prod.fst)).resolved
      = fetchSuccesses fetch ((uniprot_id_protein_id_mapping genes).map Prod.fst) := by
    rw [hca1]
    exact h2res.trans (List.nil_append _)
  have hwr2 : (resolveAll r1.cacheAfter fetch
      ((uniprot_id_protein_id_mapping genes).map Prod.fst)).writes = [] := by
    rw [hca1]
    exact h2wr
  have hresolved_eq : r2.resolved = r1.resolved := by
    rw [hr1, hr2]
    show (resolveAll r1.cacheAfter fetch
      ((uniprot_id_protein_id_mapping genes).map Prod.fst)).resolved
      = (resolveAll ([] : List (String × Option M)) fetch
        ((uniprot_id_protein_id_mapping genes).map Prod.fst)).resolved
    rw [hres2, h1res2]
  refine ⟨r1, r2, hrun1, hrun2, ?_, hresolved_eq, ?_⟩
  · rw [hr1, hr2]
    show (protein_id_mass_mapping (uniprot_id_protein_id_mapping genes)
      (resolveAll r1.cacheAfter fetch
        ((uniprot_id_protein_id_mapping genes).map Prod.fst)).resolved).1
      = (protein_id_mass_mapping (uniprot_id_protein_id_mapping genes)
        (resolveAll ([] : List (String × Option M)) fetch
          ((uniprot_id_protein_id_mapping genes).map Prod.fst)).resolved).1
    rw [hres2, h1res2]
  · rw [hr2]
    show (resolveAll r1.cacheAfter fetch
      ((uniprot_id_protein_id_mapping genes).map Prod.fst)).writes.foldl
        (fun c p => setKey c p.1 (some p.2)) r1.cacheAfter = r1.cacheAfter
    rw [hwr2]
    rfl
